import Mathlib

/-!
Verification development for the post-processing pipeline of a LinkedIn
post scraper (files `utils.py`, `parser.py`, `main.py`, `scraper.py`).

Modelling conventions:
- Python strings are `List Char`; `None`-able values are `Option`.
- `datetime` instants are `Int` (seconds since an arbitrary epoch) wherever
  only comparison and duration arithmetic matter; the calendar structure of
  `datetime` (needed by `parse_relative_date`) is the `CalDT` structure.
- External library functions used by the code — `hashlib.md5(...).hexdigest()`
  and `datetime.fromisoformat` — are parameters (`md5`, `iso`) of the
  definitions that call them.
- `try/except` around a fallible call is modelled by the call returning
  `Option` and the handler by the `none` branch.
-/

/-- Chars of a string literal, used to write Python string constants. -/
def pstr (s : String) : List Char := s.data

/-- Python whitespace in the ASCII range, as matched by the regex class `\s`
and stripped by `str.strip()`. -/
def pyIsSpace (c : Char) : Bool :=
  c = ' ' || c = '\t' || c = '\n' || c = '\r' || c = '\x0b' || c = '\x0c'

/-- Model of `re.sub(r'\s+', ' ', text)` (from `normalize_text`,
`utils.py` line 62): a left-to-right scan replacing each maximal whitespace
run by a single space; `prevSp` records whether the previous character was
part of a whitespace run. -/
def collapseWS (prevSp : Bool) : List Char → List Char
  | [] => []
  | c :: cs =>
    if pyIsSpace c then
      if prevSp then collapseWS true cs else ' ' :: collapseWS true cs
    else c :: collapseWS false cs

/-- Leading-whitespace removal, the left half of Python `str.strip()`. -/
def lstripWS (l : List Char) : List Char := l.dropWhile pyIsSpace

/-- Trailing-whitespace removal, the right half of Python `str.strip()`. -/
def rstripWS (l : List Char) : List Char := (l.reverse.dropWhile pyIsSpace).reverse

/-- Model of `normalize_text` (`utils.py` lines 48-65): collapse whitespace
runs to single spaces, then strip both ends.  The empty-input early return of
the source is subsumed: all three passes map `[]` to `[]`. -/
def normalize_text (l : List Char) : List Char :=
  rstripWS (lstripWS (collapseWS false l))

section NormalizeLemmas

/-- Heads produced by `collapseWS true` are never whitespace: with the flag
set, leading whitespace is skipped until a non-space character is emitted. -/
theorem collapseWS_true_head : ∀ cs c, (collapseWS true cs).head? = some c →
    pyIsSpace c = false := by
  intro cs
  induction cs with
  | nil => intro c h; simp [collapseWS] at h
  | cons d ds ih =>
    intro c h
    by_cases hd : pyIsSpace d = true
    · rw [collapseWS, if_pos hd, if_pos rfl] at h
      exact ih c h
    · rw [collapseWS, if_neg hd] at h
      simp only [List.head?_cons, Option.some.injEq] at h
      subst h
      simpa using hd

/-- Every whitespace character in the output of `collapseWS` is a plain
space. -/
theorem collapseWS_spacesOK : ∀ (l : List Char) (b : Bool) (c : Char),
    c ∈ collapseWS b l → pyIsSpace c = true → c = ' ' := by
  intro l
  induction l with
  | nil => intro b c h; simp [collapseWS] at h
  | cons d ds ih =>
    intro b c h hsp
    by_cases hd : pyIsSpace d = true
    · cases b with
      | true =>
        rw [collapseWS, if_pos hd, if_pos rfl] at h
        exact ih true c h hsp
      | false =>
        rw [collapseWS, if_pos hd, if_neg (by simp)] at h
        rcases List.mem_cons.mp h with h | h
        · exact h
        · exact ih true c h hsp
    · rw [collapseWS, if_neg hd] at h
      rcases List.mem_cons.mp h with h | h
      · subst h; exact absurd hsp (by simpa using hd)
      · exact ih false c h hsp

/-- Adjacency relation used to state that no two consecutive output
characters are both whitespace. -/
def WSRel (a b : Char) : Prop := pyIsSpace a = true → pyIsSpace b = false

instance : DecidableRel WSRel := fun _ _ => by unfold WSRel; infer_instance

/-- The output of `collapseWS` never contains two consecutive whitespace
characters. -/
theorem collapseWS_chain : ∀ (l : List Char) (b : Bool),
    List.Chain' WSRel (collapseWS b l) := by
  intro l
  induction l with
  | nil => intro b; simp [collapseWS]
  | cons d ds ih =>
    intro b
    by_cases hd : pyIsSpace d = true
    · cases b with
      | true => rw [collapseWS, if_pos hd, if_pos rfl]; exact ih true
      | false =>
        rw [collapseWS, if_pos hd, if_neg (by simp)]
        rw [List.chain'_cons']
        refine ⟨?_, ih true⟩
        intro y hy
        exact fun _ => collapseWS_true_head ds y hy
    · rw [collapseWS, if_neg hd]
      rw [List.chain'_cons']
      refine ⟨?_, ih false⟩
      intro y _
      intro hcontra
      exact absurd hcontra (by simpa using hd)

/-- The head of `dropWhile p l`, when present, does not satisfy `p`. -/
theorem head_dropWhile_false {p : Char → Bool} : ∀ (l : List Char) (c : Char),
    (l.dropWhile p).head? = some c → p c = false := by
  intro l
  induction l with
  | nil => intro c h; simp [List.dropWhile] at h
  | cons d ds ih =>
    intro c h
    by_cases hd : p d = true
    · rw [List.dropWhile_cons, if_pos hd] at h
      exact ih c h
    · rw [List.dropWhile_cons, if_neg hd] at h
      simp only [List.head?_cons, Option.some.injEq] at h
      subst h
      simpa using hd

/-- `rstripWS` keeps a prefix of its input. -/
theorem rstripWS_prefix_self (l : List Char) : rstripWS l <+: l := by
  have h := List.dropWhile_suffix (l := l.reverse) pyIsSpace
  have := List.reverse_prefix.mpr (by simpa using h)
  simpa [rstripWS] using this

/-- A nonempty prefix has the same head as the full list. -/
theorem head?_of_prefix_eq {l' l : List Char} (h : l' <+: l) {c : Char}
    (hc : l'.head? = some c) : l.head? = some c := by
  rcases h with ⟨t, rfl⟩
  cases l' with
  | nil => simp at hc
  | cons a as => simpa using hc

/-- Characters of `normalize_text l` that are whitespace are plain spaces. -/
theorem normalize_text_spacesOK (l : List Char) (c : Char)
    (h : c ∈ normalize_text l) (hsp : pyIsSpace c = true) : c = ' ' := by
  have h1 : c ∈ collapseWS false l := by
    have hsub1 : normalize_text l <+: lstripWS (collapseWS false l) :=
      rstripWS_prefix_self _
    have hsub2 : lstripWS (collapseWS false l) <:+ collapseWS false l :=
      List.dropWhile_suffix _
    exact hsub2.sublist.mem (hsub1.sublist.mem h)
  exact collapseWS_spacesOK l false c h1 hsp

/-- No two consecutive characters of `normalize_text l` are both
whitespace. -/
theorem normalize_text_chain (l : List Char) :
    List.Chain' WSRel (normalize_text l) := by
  have h0 := collapseWS_chain l false
  have h1 : List.Chain' WSRel (lstripWS (collapseWS false l)) :=
    h0.suffix (List.dropWhile_suffix _)
  exact h1.prefix (rstripWS_prefix_self _)

/-- The first character of `normalize_text l`, when present, is not
whitespace. -/
theorem normalize_text_head (l : List Char) (c : Char)
    (h : (normalize_text l).head? = some c) : pyIsSpace c = false := by
  have hpre : normalize_text l <+: lstripWS (collapseWS false l) :=
    rstripWS_prefix_self _
  exact head_dropWhile_false _ c (head?_of_prefix_eq hpre h)

/-- The last character of `normalize_text l`, when present, is not
whitespace (stated via the head of the reversal). -/
theorem normalize_text_last (l : List Char) (c : Char)
    (h : (normalize_text l).reverse.head? = some c) : pyIsSpace c = false := by
  unfold normalize_text rstripWS at h
  rw [List.reverse_reverse] at h
  exact head_dropWhile_false _ c h

/-- `collapseWS` fixes any list whose whitespace is already collapsed: all
whitespace characters are plain spaces, no two are adjacent, and (when the
flag is set) the head is not whitespace. -/
theorem collapseWS_eq_self : ∀ (l : List Char) (b : Bool),
    (∀ c ∈ l, pyIsSpace c = true → c = ' ') →
    List.Chain' WSRel l →
    (b = true → ∀ c, l.head? = some c → pyIsSpace c = false) →
    collapseWS b l = l := by
  intro l
  induction l with
  | nil => intro b _ _ _; simp [collapseWS]
  | cons d ds ih =>
    intro b hsp hch hhd
    by_cases hd : pyIsSpace d = true
    · cases b with
      | true => exact absurd hd (by simp [hhd rfl d])
      | false =>
        rw [collapseWS, if_pos hd, if_neg (by simp)]
        have hd' : d = ' ' := hsp d (List.mem_cons_self d ds) hd
        rw [List.chain'_cons'] at hch
        have htl : collapseWS true ds = ds := by
          refine ih true (fun c hc => hsp c (List.mem_cons_of_mem d hc))
            hch.2 ?_
          intro _ c hc
          exact hch.1 c hc hd
        rw [htl, hd']
    · rw [collapseWS, if_neg hd]
      rw [List.chain'_cons'] at hch
      have htl : collapseWS false ds = ds := by
        refine ih false (fun c hc => hsp c (List.mem_cons_of_mem d hc))
          hch.2 (by simp)
      rw [htl]

/-- `dropWhile` fixes a list whose head does not satisfy the predicate. -/
theorem dropWhile_eq_self_of_head {p : Char → Bool} (l : List Char)
    (h : ∀ c, l.head? = some c → p c = false) : l.dropWhile p = l := by
  cases l with
  | nil => simp
  | cons d ds =>
    rw [List.dropWhile_cons, if_neg (by simp [h d rfl])]

/-- `normalize_text` is idempotent: the output has collapsed internal
whitespace and no whitespace at either end, so every pass of a second
application is the identity. -/
theorem normalize_text_idem (l : List Char) :
    normalize_text (normalize_text l) = normalize_text l := by
  set N := normalize_text l with hN
  have h1 : collapseWS false N = N :=
    collapseWS_eq_self N false (normalize_text_spacesOK l)
      (normalize_text_chain l) (by simp)
  have h2 : lstripWS N = N :=
    dropWhile_eq_self_of_head N (normalize_text_head l)
  have h3 : rstripWS N = N := by
    unfold rstripWS
    rw [dropWhile_eq_self_of_head N.reverse (normalize_text_last l),
      List.reverse_reverse]
  unfold normalize_text
  rw [h1, h2, h3]

end NormalizeLemmas

/-- Model of `str.rfind(' ')`: the largest index holding a space, `-1` when
there is none. -/
def rfindSpace : List Char → Int
  | [] => -1
  | c :: cs =>
    let r := rfindSpace cs
    if r ≥ 0 then r + 1 else if c = ' ' then 0 else -1

/-- Model of `extract_text_snippet` (`utils.py` lines 68-92).  The source
compares `last_space > max_length * 0.8` with a float product; since
`last_space` is an integer and `0.8 * max_length` is at distance at least
`1/5` from any integer unless `max_length` is a multiple of `5` (in which
case the double rounds to the exact integer), the float comparison is
exactly the integer comparison `5 * last_space > 4 * max_length`. -/
def extract_text_snippet (text : List Char) (maxLength : Nat) : List Char :=
  if text.isEmpty then []
  else if text.length ≤ maxLength then text
  else if rfindSpace (text.take maxLength) * 5 > (maxLength : Int) * 4 then
    (text.take maxLength).take (rfindSpace (text.take maxLength)).toNat ++ pstr ("...")
  else text.take maxLength ++ pstr ("...")

/-- The space index reported by `rfindSpace`, clamped to `Nat`, never
exceeds the list length. -/
theorem rfindSpace_toNat_le : ∀ l : List Char, (rfindSpace l).toNat ≤ l.length := by
  intro l
  induction l with
  | nil => simp [rfindSpace]
  | cons c cs ih =>
    rw [rfindSpace]
    simp only [List.length_cons]
    by_cases hr : rfindSpace cs ≥ 0
    · rw [if_pos hr]
      have : (rfindSpace cs + 1).toNat = (rfindSpace cs).toNat + 1 := by omega
      omega
    · rw [if_neg hr]
      by_cases hc : c = ' ' <;> simp [hc]

/-- C4 claim theorem (amended): for text longer than `max_length` the result
is the `max_length`-truncation — moved back to the last space only when that
space lies strictly beyond 80% of `max_length` — with `"..."` appended, of
length at most `max_length + 3`; shorter text is returned unchanged and
empty input yields the empty string. -/
theorem extract_text_snippet_spec (text : List Char) (m : Nat) :
    (text = [] → extract_text_snippet text m = [])
    ∧ (text.length ≤ m → extract_text_snippet text m = text)
    ∧ (m < text.length →
        (extract_text_snippet text m).length ≤ m + 3
        ∧ pstr ("...") <:+ extract_text_snippet text m
        ∧ (rfindSpace (text.take m) * 5 > (m : Int) * 4 →
            extract_text_snippet text m
              = text.take (rfindSpace (text.take m)).toNat ++ pstr ("..."))
        ∧ (¬ rfindSpace (text.take m) * 5 > (m : Int) * 4 →
            extract_text_snippet text m = text.take m ++ pstr ("..."))) := by
  refine ⟨?_, ?_, ?_⟩
  · intro h
    subst h
    simp [extract_text_snippet]
  · intro h
    by_cases he : text.isEmpty
    · rw [List.isEmpty_iff] at he
      subst he
      simp [extract_text_snippet]
    · unfold extract_text_snippet
      rw [if_neg he, if_pos h]
  · intro hm
    have he : text.isEmpty = false := by
      cases text with
      | nil => simp at hm
      | cons a as => simp
    have hnotle : ¬ text.length ≤ m := by omega
    have hts : (rfindSpace (text.take m)).toNat ≤ m := by
      have h1 := rfindSpace_toNat_le (text.take m)
      have h2 : (text.take m).length = m := by
        rw [List.length_take]
        omega
      omega
    refine ⟨?_, ?_, ?_, ?_⟩
    · unfold extract_text_snippet
      rw [if_neg (by simp [he]), if_neg hnotle]
      by_cases hc : rfindSpace (text.take m) * 5 > (m : Int) * 4
      · rw [if_pos hc]
        have h1 : ((text.take m).take (rfindSpace (text.take m)).toNat).length ≤ m := by
          rw [List.length_take, List.length_take]
          omega
        rw [List.length_append]
        have h3 : (pstr ("...")).length = 3 := rfl
        omega
      · rw [if_neg hc]
        rw [List.length_append, List.length_take]
        have h3 : (pstr ("...")).length = 3 := rfl
        omega
    · unfold extract_text_snippet
      rw [if_neg (by simp [he]), if_neg hnotle]
      by_cases hc : rfindSpace (text.take m) * 5 > (m : Int) * 4
      · rw [if_pos hc]
        exact List.suffix_append _ _
      · rw [if_neg hc]
        exact List.suffix_append _ _
    · intro hc
      unfold extract_text_snippet
      rw [if_neg (by simp [he]), if_neg hnotle, if_pos hc, List.take_take,
        min_eq_left hts]
    · intro hc
      unfold extract_text_snippet
      rw [if_neg (by simp [he]), if_neg hnotle, if_neg hc]

/-- C4 counterexample: with `max_length = 10` and input `"abcdefgh ij"` the
last space of the truncation `"abcdefgh i"` sits exactly at 80% of
`max_length` (index 8), but the source's strict comparison leaves the cut at
`max_length`, contradicting the claim's "at or beyond 80% (including exactly
at 80%)". -/
theorem extract_text_snippet_80_boundary :
    extract_text_snippet (pstr ("abcdefgh ij")) 10 = pstr ("abcdefgh i...")
    ∧ extract_text_snippet (pstr ("abcdefgh ij")) 10 ≠ pstr ("abcdefgh...") := by
  decide

/-- Witness for `extract_text_snippet_spec` at a concrete short input. -/
theorem extract_text_snippet_spec_witness :
    extract_text_snippet (pstr ("hi")) 10 = pstr ("hi") :=
  (extract_text_snippet_spec (pstr ("hi")) 10).2.1 (by decide)

/-- Python word character in the ASCII range, as classified by `\w` for the
word-boundary assertion `\b`. -/
def isWordChar (c : Char) : Bool := c.isAlphanum || c = '_'

/-- Word boundary `\b` at position `i` of `l`: exactly one of the two
adjacent positions holds a word character (positions outside the string
count as non-word). -/
def boundaryAt (l : List Char) (i : Nat) : Bool :=
  (if i = 0 then false else isWordChar (l.getD (i - 1) ' '))
    != isWordChar (l.getD i ' ')

/-- Match of the regex `\b<kw>\b` at position `i` of `l`, where `kw` is a
literal keyword (the source escapes it with `re.escape`). -/
def matchAt (l kw : List Char) (i : Nat) : Bool :=
  ((l.drop i).take kw.length == kw) && boundaryAt l i
    && boundaryAt l (i + kw.length)

/-- Left-to-right scan of `re.findall`: on a match, resume after its end
(one step further for a zero-width match); on a miss, advance one
position. -/
def countMatchesFrom (l kw : List Char) (i : Nat) : Nat :=
  if h : l.length < i then 0
  else if matchAt l kw i then 1 + countMatchesFrom l kw (i + max kw.length 1)
  else countMatchesFrom l kw (i + 1)
termination_by l.length + 1 - i
decreasing_by
  · have := Nat.le_max_right kw.length 1
    omega
  · omega

/-- Model of `len(re.findall(r'\b' + re.escape(kw) + r'\b', text))`
(`utils.py` line 42). -/
def countMatches (l kw : List Char) : Nat := countMatchesFrom l kw 0

/-- Python `str.lower()`, character-wise. -/
def pyLower (l : List Char) : List Char := l.map Char.toLower

/-- Model of `calculate_relevance_score` (`utils.py` lines 22-45): zero for
empty text or keyword list, otherwise the sum over the keywords of the
whole-word occurrence counts in the lowercased text. -/
def calculate_relevance_score (text : List Char)
    (keywords : List (List Char)) : Nat :=
  if text.isEmpty || keywords.isEmpty then 0
  else (keywords.map (fun kw => countMatches (pyLower text) (pyLower kw))).sum

/-- C9 claim theorem: `calculate_relevance_score` is invariant under
permutation of the keyword list. -/
theorem calculate_relevance_score_perm (text : List Char)
    (K1 K2 : List (List Char)) (h : K1.Perm K2) :
    calculate_relevance_score text K1 = calculate_relevance_score text K2 := by
  unfold calculate_relevance_score
  have hempty : K1.isEmpty = K2.isEmpty := by
    have hl := h.length_eq
    cases K1 <;> cases K2 <;> simp_all
  rw [hempty]
  by_cases hh : (text.isEmpty || K2.isEmpty) = true
  · rw [if_pos hh, if_pos hh]
  · rw [if_neg hh, if_neg hh]
    exact List.Perm.sum_eq (h.map _)

/-- Witness for `calculate_relevance_score_perm` on a concrete swap of two
keywords. -/
theorem calculate_relevance_score_perm_witness :
    calculate_relevance_score (pstr ("hiring now"))
        [pstr ("hiring"), pstr ("now")]
      = calculate_relevance_score (pstr ("hiring now"))
        [pstr ("now"), pstr ("hiring")] :=
  calculate_relevance_score_perm (pstr ("hiring now")) _ _
    (List.Perm.swap (pstr ("now")) (pstr ("hiring")) [])

/-- Value held in a record's `date_posted` field: a timezone-naive
`datetime` instant, a timezone-aware one (as `fromisoformat` yields for
inputs carrying an offset, e.g. after the `Z` rewrite), or an unparsed
string. -/
inductive DateVal where
  | dt (t : Int)
  | dtAware (t : Int)
  | str (s : List Char)
deriving DecidableEq

/-- Canonical post record, modelling the Python dict handled by the
pipeline.  A `none` field models a key absent from the dict. -/
structure Post where
  post_url : Option (List Char)
  author_url : Option (List Char)
  author_name : Option (List Char)
  text : Option (List Char)
  text_snippet : Option (List Char)
  date_posted : Option DateVal
  likes : Option Int
  comments : Option Int
  score : Option Nat
deriving DecidableEq

instance : Inhabited Post :=
  ⟨⟨none, none, none, none, none, none, none, none, none⟩⟩

/-- Model of `post.get(key)` restricted to the string-valued fields of the
record, the fields a deduplication key field can name. -/
def Post.getStr (p : Post) (k : List Char) : Option (List Char) :=
  if k = pstr ("post_url") then p.post_url
  else if k = pstr ("author_url") then p.author_url
  else if k = pstr ("author_name") then p.author_name
  else if k = pstr ("text") then p.text
  else if k = pstr ("text_snippet") then p.text_snippet
  else none

/-- Python truthiness of an optional string: `None` and `""` are falsy. -/
def isTruthyS : Option (List Char) → Bool
  | some s => !s.isEmpty
  | none => false

/-- Python `post.get('text', '')`. -/
def Post.textD (p : Post) : List Char := p.text.getD []

/-- Key resolution of `deduplicate_posts` (`utils.py` lines 110-123): the
`key` field's value; if that is falsy and the key is `post_url`, the `md5`
hash of the full text when that text is nonempty; if still falsy, the `md5`
hash of the first 50 characters of the text when nonempty. -/
def postKey (md5 : List Char → List Char) (key : List Char) (p : Post) :
    Option (List Char) :=
  let k1 := p.getStr key
  let k2 := if !isTruthyS k1 && (key == pstr ("post_url")) then
      (if !(p.textD).isEmpty then some (md5 p.textD) else k1)
    else k1
  if !isTruthyS k2 then
    (if !((p.textD).take 50).isEmpty then some (md5 ((p.textD).take 50))
     else k2)
  else k2

/-- Loop of `deduplicate_posts` (`utils.py` lines 106-132); `seen` collects
the keys already added, newest first. -/
def dedupGo (md5 : List Char → List Char) (key : List Char)
    (seen : List (List Char)) : List Post → List Post
  | [] => []
  | p :: ps =>
    let k := postKey md5 key p
    if isTruthyS k && !decide (k.getD [] ∈ seen) then
      p :: dedupGo md5 key (k.getD [] :: seen) ps
    else if !isTruthyS k then
      p :: dedupGo md5 key seen ps
    else
      dedupGo md5 key seen ps

/-- Model of `deduplicate_posts` (`utils.py` lines 95-132). -/
def deduplicate_posts (md5 : List Char → List Char) (posts : List Post)
    (key : List Char) : List Post :=
  dedupGo md5 key [] posts

/-- Effective identity of a record under deduplication: its resolved key
when truthy, `none` when the record is keyless. -/
def effKey (md5 : List Char → List Char) (key : List Char) (p : Post) :
    Option (List Char) :=
  match postKey md5 key p with
  | none => none
  | some s => if s.isEmpty then none else some s

/-- Survival predicate of first-occurrence deduplication, stated
positionally over the input list: index `i` survives when its effective key
is `none`, or when its key is outside `seen` and no earlier index resolves
to the same key. -/
def keepAt (g : Post → Option (List Char)) (seen : List (List Char))
    (posts : List Post) (i : Nat) : Bool :=
  match g (posts.getD i default) with
  | none => true
  | some k => !decide (k ∈ seen)
      && ((List.range i).all fun j => !decide (g (posts.getD j default) = some k))

/-- First-occurrence deduplication by the key function `g`, starting from
already-seen keys `seen`. -/
def dedupSpecAux (g : Post → Option (List Char)) (seen : List (List Char))
    (posts : List Post) : List Post :=
  ((List.range posts.length).filter (keepAt g seen posts)).map
    (fun i => posts.getD i default)

/-- First-occurrence deduplication by the key function `g`: keeps exactly
the first record of each resolved key, drops every later record with the
same key, keeps every keyless record, and preserves order. -/
def dedupSpec (g : Post → Option (List Char)) (posts : List Post) :
    List Post :=
  dedupSpecAux g [] posts

/-- Key chain of the amended C3 claim: the `key_field` value if non-empty;
else, when `key_field` is `post_url`, the hash of the full text if that is
non-empty; else the hash of the first 50 characters of the text if
non-empty; else no key. -/
def amendedKey (md5 : List Char → List Char) (key : List Char) (p : Post) :
    Option (List Char) :=
  if isTruthyS (p.getStr key) then p.getStr key
  else if (key == pstr ("post_url")) && !(p.textD).isEmpty then
    some (md5 p.textD)
  else if !((p.textD).take 50).isEmpty then some (md5 ((p.textD).take 50))
  else none

/-- Key chain exactly as the C3 claim states it, for an arbitrary
`key_field`: the field value if non-empty, else the hash of the full text
if non-empty, else the hash of the first 50 characters if non-empty. -/
def claimKey (md5 : List Char → List Char) (key : List Char) (p : Post) :
    Option (List Char) :=
  if isTruthyS (p.getStr key) then p.getStr key
  else if !(p.textD).isEmpty then some (md5 p.textD)
  else if !((p.textD).take 50).isEmpty then some (md5 ((p.textD).take 50))
  else none

section DedupLemmas

variable (md5 : List Char → List Char) (key : List Char)

/-- A keyless record has a falsy resolved key. -/
theorem effKey_none_truthy (p : Post) (h : effKey md5 key p = none) :
    isTruthyS (postKey md5 key p) = false := by
  unfold effKey at h
  cases hpk : postKey md5 key p with
  | none => rfl
  | some s =>
    rw [hpk] at h
    have h' : (if s.isEmpty = true then (none : Option (List Char))
        else some s) = none := h
    by_cases hs : s.isEmpty = true
    · simp [isTruthyS, hs]
    · rw [if_neg hs] at h'
      exact absurd h' (by simp)

/-- A keyed record's resolved key is exactly its effective key, and it is
nonempty. -/
theorem effKey_some_postKey (p : Post) (k : List Char)
    (h : effKey md5 key p = some k) :
    postKey md5 key p = some k ∧ k.isEmpty = false := by
  unfold effKey at h
  cases hpk : postKey md5 key p with
  | none => rw [hpk] at h; exact absurd h (by simp)
  | some s =>
    rw [hpk] at h
    have h' : (if s.isEmpty = true then (none : Option (List Char))
        else some s) = some k := h
    by_cases hs : s.isEmpty = true
    · rw [if_pos hs] at h'
      exact absurd h' (by simp)
    · rw [if_neg hs] at h'
      obtain rfl : s = k := by simpa using h'
      exact ⟨rfl, by simpa using hs⟩

/-- Loop step on a keyless record: always kept, `seen` unchanged. -/
theorem dedupGo_cons_keyless (seen : List (List Char)) (p : Post)
    (ps : List Post) (h : effKey md5 key p = none) :
    dedupGo md5 key seen (p :: ps) = p :: dedupGo md5 key seen ps := by
  have ht := effKey_none_truthy md5 key p h
  simp only [dedupGo]
  rw [ht]
  simp

/-- Loop step on a record whose key was already seen: dropped. -/
theorem dedupGo_cons_mem (seen : List (List Char)) (p : Post)
    (ps : List Post) (k : List Char) (h : effKey md5 key p = some k)
    (hm : k ∈ seen) :
    dedupGo md5 key seen (p :: ps) = dedupGo md5 key seen ps := by
  obtain ⟨hpk, hk⟩ := effKey_some_postKey md5 key p k h
  simp only [dedupGo]
  rw [hpk]
  simp [isTruthyS, hk, hm]

/-- Loop step on a record with a fresh key: kept, key recorded. -/
theorem dedupGo_cons_new (seen : List (List Char)) (p : Post)
    (ps : List Post) (k : List Char) (h : effKey md5 key p = some k)
    (hm : k ∉ seen) :
    dedupGo md5 key seen (p :: ps) = p :: dedupGo md5 key (k :: seen) ps := by
  obtain ⟨hpk, hk⟩ := effKey_some_postKey md5 key p k h
  simp only [dedupGo]
  rw [hpk]
  simp [isTruthyS, hk, hm]

/-- Shifting the positional survival predicate across the head record. -/
theorem keepAt_cons_succ (g : Post → Option (List Char))
    (seen : List (List Char)) (p : Post) (ps : List Post) (i : Nat) :
    keepAt g seen (p :: ps) (i + 1)
      = keepAt g (match g p with | none => seen | some k => k :: seen) ps i := by
  unfold keepAt
  rw [List.getD_cons_succ]
  cases hgi : g (ps.getD i default) with
  | none => rfl
  | some k =>
    apply Bool.eq_iff_iff.mpr
    rw [List.range_succ_eq_map]
    simp only [List.all_cons, List.all_map, Function.comp, List.getD_cons_zero,
      List.getD_cons_succ, Bool.and_eq_true, List.all_eq_true, Bool.not_eq_true',
      decide_eq_false_iff_not]
    cases hgp : g p with
    | none => simp
    | some kp =>
      simp only [List.mem_cons]
      constructor
      · rintro ⟨hns, hnp, hall⟩
        refine ⟨?_, hall⟩
        rintro (rfl | hmem)
        · exact hnp (by simp)
        · exact hns hmem
      · rintro ⟨hns, hall⟩
        refine ⟨fun hmem => hns (Or.inr hmem), ?_, hall⟩
        intro hEq
        rw [Option.some_inj] at hEq
        exact hns (Or.inl hEq.symm)

/-- Unfolding of positional first-occurrence dedup across the head. -/
theorem dedupSpecAux_cons (g : Post → Option (List Char))
    (seen : List (List Char)) (p : Post) (ps : List Post) :
    dedupSpecAux g seen (p :: ps)
      = if keepAt g seen (p :: ps) 0 = true then
          p :: dedupSpecAux g
            (match g p with | none => seen | some k => k :: seen) ps
        else dedupSpecAux g
            (match g p with | none => seen | some k => k :: seen) ps := by
  have htail : (((List.range ps.length).map Nat.succ).filter
        (keepAt g seen (p :: ps))).map (fun i => (p :: ps).getD i default)
      = dedupSpecAux g (match g p with | none => seen | some k => k :: seen)
          ps := by
    rw [List.filter_map, List.map_map]
    unfold dedupSpecAux
    have hf : (keepAt g seen (p :: ps)) ∘ Nat.succ
        = keepAt g (match g p with | none => seen | some k => k :: seen) ps :=
      funext fun i => keepAt_cons_succ g seen p ps i
    rw [hf]
    have hg : ((fun i => (p :: ps).getD i default) ∘ Nat.succ)
        = fun i => ps.getD i default :=
      funext fun i => List.getD_cons_succ
    rw [hg]
  unfold dedupSpecAux
  rw [List.length_cons, List.range_succ_eq_map, List.filter_cons]
  by_cases h0 : keepAt g seen (p :: ps) 0 = true
  · rw [if_pos h0, if_pos h0, List.map_cons, List.getD_cons_zero]
    rw [htail]
    rfl
  · rw [if_neg (by simpa using h0), if_neg h0]
    rw [htail]
    rfl

/-- The positional survival predicate only consults membership in `seen`. -/
theorem keepAt_seen_congr (g : Post → Option (List Char))
    (seen1 seen2 : List (List Char))
    (hs : ∀ x, x ∈ seen1 ↔ x ∈ seen2) (posts : List Post) (i : Nat) :
    keepAt g seen1 posts i = keepAt g seen2 posts i := by
  unfold keepAt
  cases g (posts.getD i default) with
  | none => rfl
  | some k =>
    have hd : decide (k ∈ seen1) = decide (k ∈ seen2) :=
      decide_eq_decide.mpr (hs k)
    simp only [hd]

/-- Positional first-occurrence dedup only consults membership in `seen`. -/
theorem dedupSpecAux_seen_congr (g : Post → Option (List Char))
    (seen1 seen2 : List (List Char))
    (hs : ∀ x, x ∈ seen1 ↔ x ∈ seen2) (posts : List Post) :
    dedupSpecAux g seen1 posts = dedupSpecAux g seen2 posts := by
  unfold dedupSpecAux
  have hf : keepAt g seen1 posts = keepAt g seen2 posts :=
    funext fun i => keepAt_seen_congr g seen1 seen2 hs posts i
  rw [hf]

/-- The dedup loop computes positional first-occurrence dedup by the
effective key. -/
theorem dedupGo_eq_dedupSpecAux : ∀ (posts : List Post)
    (seen : List (List Char)),
    dedupGo md5 key seen posts = dedupSpecAux (effKey md5 key) seen posts := by
  intro posts
  induction posts with
  | nil => intro seen; simp [dedupGo, dedupSpecAux]
  | cons p ps ih =>
    intro seen
    rw [dedupSpecAux_cons]
    cases hk : effKey md5 key p with
    | none =>
      rw [dedupGo_cons_keyless md5 key seen p ps hk]
      have h0 : keepAt (effKey md5 key) seen (p :: ps) 0 = true := by
        unfold keepAt
        rw [List.getD_cons_zero, hk]
      rw [if_pos h0, ih]
    | some k =>
      by_cases hm : k ∈ seen
      · rw [dedupGo_cons_mem md5 key seen p ps k hk hm]
        have h0 : keepAt (effKey md5 key) seen (p :: ps) 0 = false := by
          unfold keepAt
          rw [List.getD_cons_zero, hk]
          simp [hm]
        rw [if_neg (by simp [h0]), ih]
        exact dedupSpecAux_seen_congr _ seen (k :: seen)
          (fun x => by
            constructor
            · intro hx
              exact List.mem_cons_of_mem k hx
            · intro hx
              rcases List.mem_cons.mp hx with rfl | hx
              · exact hm
              · exact hx) ps
      · rw [dedupGo_cons_new md5 key seen p ps k hk hm]
        have h0 : keepAt (effKey md5 key) seen (p :: ps) 0 = true := by
          unfold keepAt
          rw [List.getD_cons_zero, hk]
          simp [hm]
        rw [if_pos h0, ih]

end DedupLemmas

/-- Truthiness of an optional string unpacked. -/
theorem isTruthyS_iff (o : Option (List Char)) :
    isTruthyS o = true ↔ ∃ s, o = some s ∧ s.isEmpty = false := by
  cases o with
  | none => simp [isTruthyS]
  | some s =>
    by_cases hs : s.isEmpty = true
    · simp only [isTruthyS, hs, Bool.not_true]
      constructor
      · intro h
        exact absurd h (by simp)
      · rintro ⟨s', hs', hf⟩
        rw [Option.some_inj] at hs'
        subst hs'
        rw [hs] at hf
        exact absurd hf (by simp)
    · have hs' : s.isEmpty = false := by simpa using hs
      simp [isTruthyS, hs']
      simpa [List.isEmpty_iff] using hs

/-- Taking the first 50 characters preserves (non)emptiness. -/
theorem take50_isEmpty (t : List Char) : (t.take 50).isEmpty = t.isEmpty := by
  cases t with
  | nil => rfl
  | cons c cs => rfl

/-- When the hash never returns an empty string (as `hexdigest` never does),
the effective dedup key follows the amended resolution chain. -/
theorem effKey_eq_amendedKey (md5 : List Char → List Char)
    (hmd5 : ∀ s, (md5 s).isEmpty = false) (key : List Char) (p : Post) :
    effKey md5 key p = amendedKey md5 key p := by
  cases hv : p.getStr key with
  | some s =>
    by_cases hs : s.isEmpty = true
    · by_cases hkey : (key == pstr ("post_url")) = true
      · by_cases ht : (p.textD).isEmpty = true
        · simp [effKey, postKey, amendedKey, hv, hs, hkey, ht, isTruthyS,
            take50_isEmpty]
        · simp [effKey, postKey, amendedKey, hv, hs, hkey, ht, isTruthyS,
            take50_isEmpty, hmd5]
      · by_cases ht : (p.textD).isEmpty = true
        · simp [effKey, postKey, amendedKey, hv, hs, hkey, ht, isTruthyS,
            take50_isEmpty]
        · simp [effKey, postKey, amendedKey, hv, hs, hkey, ht, isTruthyS,
            take50_isEmpty, hmd5]
    · simp [effKey, postKey, amendedKey, hv, hs, isTruthyS]
  | none =>
    by_cases hkey : (key == pstr ("post_url")) = true
    · by_cases ht : (p.textD).isEmpty = true
      · simp [effKey, postKey, amendedKey, hv, hkey, ht, isTruthyS,
          take50_isEmpty]
      · simp [effKey, postKey, amendedKey, hv, hkey, ht, isTruthyS,
          take50_isEmpty, hmd5]
    · by_cases ht : (p.textD).isEmpty = true
      · simp [effKey, postKey, amendedKey, hv, hkey, ht, isTruthyS,
          take50_isEmpty]
      · simp [effKey, postKey, amendedKey, hv, hkey, ht, isTruthyS,
          take50_isEmpty, hmd5]

/-- C3 claim theorem (amended): `deduplicate_posts` keeps exactly the first
record for each resolved key, drops later records with the same key,
preserves order, and always keeps keyless records, where the key chain is
the value of `key_field` if non-empty, then — only when `key_field` is
`post_url` — the content hash of the full text if non-empty, then the
content hash of the first 50 characters of the text if non-empty. -/
theorem deduplicate_posts_spec (md5 : List Char → List Char)
    (hmd5 : ∀ s, (md5 s).isEmpty = false) (key : List Char)
    (posts : List Post) :
    deduplicate_posts md5 posts key = dedupSpec (amendedKey md5 key) posts := by
  unfold deduplicate_posts dedupSpec
  rw [dedupGo_eq_dedupSpecAux]
  have hg : effKey md5 key = amendedKey md5 key :=
    funext fun p => effKey_eq_amendedKey md5 hmd5 key p
  rw [hg]

/-- Witness for `deduplicate_posts_spec` at a concrete list and hash. -/
theorem deduplicate_posts_spec_witness :
    deduplicate_posts (fun _ => pstr ("d41d8cd98f00b204e9800998ecf8427e"))
        [(default : Post)] (pstr ("post_url"))
      = dedupSpec (amendedKey
          (fun _ => pstr ("d41d8cd98f00b204e9800998ecf8427e"))
          (pstr ("post_url"))) [(default : Post)] :=
  deduplicate_posts_spec _ (fun _ => by decide) _ _

/-- Record pair exhibiting the gap between the claim's key chain and the
source: dedup key `author_url` absent, texts agreeing on the first 50
characters but differing later. -/
def cexPostX : Post :=
  ⟨none, some [], none, some (List.replicate 50 'a' ++ [ 'x' ]), none, none,
    none, none, none⟩

/-- Companion record to `cexPostX`, differing only after character 50. -/
def cexPostY : Post :=
  ⟨none, some [], none, some (List.replicate 50 'a' ++ [ 'y' ]), none, none,
    none, none, none⟩

/-- C3 counterexample: with `key_field = "author_url"` the source skips the
full-text hash (it is gated on `key == "post_url"`) and keys both records by
the hash of their common first 50 characters, dropping the second; the
claim's stated chain would key them by their distinct full-text hashes and
keep both.  The hash parameter is instantiated with an injective stand-in,
as the real `md5` is injective on these two inputs. -/
theorem deduplicate_posts_chain_counterexample :
    deduplicate_posts (fun s => s) [cexPostX, cexPostY] (pstr ("author_url"))
      = [cexPostX]
    ∧ dedupSpec (claimKey (fun s => s) (pstr ("author_url")))
        [cexPostX, cexPostY] = [cexPostX, cexPostY] := by
  decide

/-- Pairwise distinctness of effective keys along a list. -/
def KeysDistinct (md5 : List Char → List Char) (key : List Char)
    (l : List Post) : Prop :=
  l.Pairwise (fun a b => ∀ k, effKey md5 key a = some k →
    effKey md5 key b ≠ some k)

/-- The dedup loop emits no key present in `seen` and no two records with
the same effective key. -/
theorem dedupGo_output_sound (md5 : List Char → List Char)
    (key : List Char) : ∀ (ps : List Post) (seen : List (List Char)),
    (∀ p ∈ dedupGo md5 key seen ps, ∀ k, effKey md5 key p = some k →
      k ∉ seen)
    ∧ KeysDistinct md5 key (dedupGo md5 key seen ps) := by
  intro ps
  induction ps with
  | nil =>
    intro seen
    exact ⟨by simp [dedupGo], by simp [dedupGo, KeysDistinct]⟩
  | cons p ps ih =>
    intro seen
    cases hk : effKey md5 key p with
    | none =>
      rw [dedupGo_cons_keyless md5 key seen p ps hk]
      obtain ⟨ih1, ih2⟩ := ih seen
      refine ⟨?_, ?_⟩
      · intro q hq k hq'
        rcases List.mem_cons.mp hq with rfl | hq
        · rw [hk] at hq'
          exact absurd hq' (by simp)
        · exact ih1 q hq k hq'
      · refine List.Pairwise.cons ?_ ih2
        intro q _ k hk'
        rw [hk] at hk'
        exact absurd hk' (by simp)
    | some k =>
      by_cases hm : k ∈ seen
      · rw [dedupGo_cons_mem md5 key seen p ps k hk hm]
        exact ih seen
      · rw [dedupGo_cons_new md5 key seen p ps k hk hm]
        obtain ⟨ih1, ih2⟩ := ih (k :: seen)
        refine ⟨?_, ?_⟩
        · intro q hq k' hq'
          rcases List.mem_cons.mp hq with rfl | hq
          · rw [hk] at hq'
            obtain rfl : k = k' := by simpa using hq'
            exact hm
          · exact fun hin => ih1 q hq k' hq' (List.mem_cons_of_mem k hin)
        · refine List.Pairwise.cons ?_ ih2
          intro q hq k0 h0
          rw [hk] at h0
          obtain rfl : k = k0 := by simpa using h0
          intro hq'
          exact ih1 q hq k hq' (List.mem_cons_self _ _)

/-- The dedup loop fixes any list whose keyed records avoid `seen` and have
pairwise-distinct keys. -/
theorem dedupGo_fixed (md5 : List Char → List Char) (key : List Char) :
    ∀ (l : List Post) (seen : List (List Char)),
    (∀ p ∈ l, ∀ k, effKey md5 key p = some k → k ∉ seen) →
    KeysDistinct md5 key l →
    dedupGo md5 key seen l = l := by
  intro l
  induction l with
  | nil => intro seen _ _; rfl
  | cons p ps ih =>
    intro seen h1 h2
    cases hk : effKey md5 key p with
    | none =>
      rw [dedupGo_cons_keyless md5 key seen p ps hk]
      rw [ih seen (fun q hq => h1 q (List.mem_cons_of_mem p hq)) h2.of_cons]
    | some k =>
      have hm : k ∉ seen := h1 p (List.mem_cons_self p ps) k hk
      rw [dedupGo_cons_new md5 key seen p ps k hk hm]
      congr 1
      apply ih (k :: seen)
      · intro q hq k' hq' hin
        rcases List.mem_cons.mp hin with rfl | hin
        · exact (List.pairwise_cons.mp h2).1 q hq k' hk hq'
        · exact h1 q (List.mem_cons_of_mem p hq) k' hq' hin
      · exact h2.of_cons

/-- C8 claim theorem: `deduplicate_posts` is idempotent — deduplicating an
already-deduplicated list returns it unchanged. -/
theorem deduplicate_posts_idem (md5 : List Char → List Char)
    (posts : List Post) (key : List Char) :
    deduplicate_posts md5 (deduplicate_posts md5 posts key) key
      = deduplicate_posts md5 posts key := by
  unfold deduplicate_posts
  obtain ⟨_, h2⟩ := dedupGo_output_sound md5 key posts []
  exact dedupGo_fixed md5 key _ [] (fun p _ k _ => by simp) h2

/-- Model of Python `str.replace(pat, rep)` for a nonempty pattern: replace
every occurrence, scanning left to right (the source only uses the pattern
`"Z"`). -/
def pyReplace (pat rep : List Char) : List Char → List Char
  | [] => []
  | c :: cs =>
    if h : pat ≠ [] ∧ pat.isPrefixOf (c :: cs) = true then
      rep ++ pyReplace pat rep ((c :: cs).drop pat.length)
    else c :: pyReplace pat rep cs
termination_by l => l.length
decreasing_by
  · have h1 : 0 < pat.length := List.length_pos.mpr h.1
    simp only [List.length_drop, List.length_cons]
    omega
  · simp only [List.length_cons]
    omega

/-- Seconds in a day, the step of `timedelta(days=...)`. -/
def daySeconds : Int := 86400

/-- Naive-comparable timestamp of a record: a naive instant as-is, or a
string parsed by `fromisoformat` (after the `Z` to `+00:00` rewrite) when
the parse yields a naive value; aware values, absent fields and
unparseable strings resolve to nothing.  `iso` returns the parsed instant
together with its awareness flag. -/
def parsedNaiveDate (iso : List Char → Option (Int × Bool)) :
    Option DateVal → Option Int
  | some (DateVal.dt t) => some t
  | some (DateVal.dtAware _) => none
  | some (DateVal.str s) =>
    match iso (pyReplace (pstr ("Z")) (pstr ("+00:00")) s) with
    | some (t, false) => some t
    | some (_, true) => none
    | none => none
  | none => none

/-- Loop of `filter_posts_by_date` (`main.py` lines 51-66).  The cutoff is
timezone-naive (`datetime.now()`), so comparing it with an aware
`datetime` raises `TypeError`: uncaught for a datetime-typed field (line
54), caught by the bare `except` for a parsed string date (lines 58-63,
record kept).  `Except.error` models the uncaught exception. -/
def filter_posts_by_date_go (iso : List Char → Option (Int × Bool))
    (cutoff : Int) : List Post → Except Unit (List Post)
  | [] => Except.ok []
  | p :: ps =>
    match p.date_posted with
    | some (DateVal.dtAware _) => Except.error ()
    | some (DateVal.dt t) =>
      match filter_posts_by_date_go iso cutoff ps with
      | Except.ok rest => Except.ok (if cutoff ≤ t then p :: rest else rest)
      | Except.error e => Except.error e
    | some (DateVal.str s) =>
      match filter_posts_by_date_go iso cutoff ps with
      | Except.ok rest =>
        Except.ok
          (match iso (pyReplace (pstr ("Z")) (pstr ("+00:00")) s) with
          | some (t, false) => if cutoff ≤ t then p :: rest else rest
          | some (_, true) => p :: rest
          | none => p :: rest)
      | Except.error e => Except.error e
    | none =>
      match filter_posts_by_date_go iso cutoff ps with
      | Except.ok rest => Except.ok (p :: rest)
      | Except.error e => Except.error e

/-- Model of `filter_posts_by_date` (`main.py` lines 34-68).  `days_limit`
is `Option Int` to cover the "absent" case of the claim; `not days_limit`
is `none` or `0`, both covered by the nonpositivity test. -/
def filter_posts_by_date (iso : List Char → Option (Int × Bool)) (now : Int)
    (posts : List Post) (days_limit : Option Int) : Except Unit (List Post) :=
  if days_limit = none ∨ days_limit.getD 0 ≤ 0 then Except.ok posts
  else
    filter_posts_by_date_go iso (now - days_limit.getD 0 * daySeconds) posts

/-- A timezone-aware datetime field anywhere in the list makes the loop
raise. -/
theorem filterGo_error (iso : List Char → Option (Int × Bool))
    (cutoff : Int) : ∀ posts : List Post,
    (∃ p ∈ posts, ∃ t, p.date_posted = some (DateVal.dtAware t)) →
    filter_posts_by_date_go iso cutoff posts = Except.error () := by
  intro posts
  induction posts with
  | nil =>
    rintro ⟨p, hp, _⟩
    simp at hp
  | cons p ps ih =>
    rintro ⟨q, hq, t, hqt⟩
    rcases List.mem_cons.mp hq with rfl | hq
    · simp [filter_posts_by_date_go, hqt]
    · have hrest := ih ⟨q, hq, t, hqt⟩
      cases hd : p.date_posted with
      | none => simp [filter_posts_by_date_go, hd, hrest]
      | some dv =>
        cases dv with
        | dt t2 => simp [filter_posts_by_date_go, hd, hrest]
        | dtAware t2 => simp [filter_posts_by_date_go, hd]
        | str s => simp [filter_posts_by_date_go, hd, hrest]

/-- Without aware datetime fields, the loop is the fail-open filter on
naive-resolved dates. -/
theorem filterGo_ok (iso : List Char → Option (Int × Bool))
    (cutoff : Int) : ∀ posts : List Post,
    (∀ p ∈ posts, ∀ t, p.date_posted ≠ some (DateVal.dtAware t)) →
    filter_posts_by_date_go iso cutoff posts
      = Except.ok (posts.filter fun p =>
          !((parsedNaiveDate iso p.date_posted).any
            fun t => decide (t < cutoff))) := by
  intro posts
  induction posts with
  | nil => intro _; rfl
  | cons p ps ih =>
    intro h
    have hrest := ih fun q hq => h q (List.mem_cons_of_mem p hq)
    cases hd : p.date_posted with
    | none =>
      rw [List.filter_cons]
      simp [filter_posts_by_date_go, hd, hrest, parsedNaiveDate]
    | some dv =>
      cases dv with
      | dtAware t => exact absurd hd (h p (List.mem_cons_self p ps) t)
      | dt t =>
        rw [List.filter_cons]
        by_cases hc : cutoff ≤ t
        · have hlt : ¬ (t < cutoff) := by omega
          simp [filter_posts_by_date_go, hd, hrest, parsedNaiveDate, hc, hlt]
        · have hlt : t < cutoff := by omega
          simp [filter_posts_by_date_go, hd, hrest, parsedNaiveDate, hc, hlt]
      | str s =>
        rw [List.filter_cons]
        cases hiso : iso (pyReplace (pstr ("Z")) (pstr ("+00:00")) s) with
        | none =>
          simp [filter_posts_by_date_go, hd, hrest, parsedNaiveDate, hiso]
        | some ta =>
          obtain ⟨t, aw⟩ := ta
          cases aw with
          | true =>
            simp [filter_posts_by_date_go, hd, hrest, parsedNaiveDate, hiso]
          | false =>
            by_cases hc : cutoff ≤ t
            · have hlt : ¬ (t < cutoff) := by omega
              simp [filter_posts_by_date_go, hd, hrest, parsedNaiveDate,
                hiso, hc, hlt]
            · have hlt : t < cutoff := by omega
              simp [filter_posts_by_date_go, hd, hrest, parsedNaiveDate,
                hiso, hc, hlt]

/-- C2 claim theorem (amended): absent or nonpositive `days_limit` is the
identity; with a positive limit, a timezone-aware datetime field makes the
filter raise the uncaught comparison `TypeError`, and on a list free of
aware datetime fields a record is excluded exactly when its date resolves
to a naive instant strictly before `now - days_limit` days — absent,
unparseable, and aware-parsing string dates are kept (fail open). -/
theorem filter_posts_by_date_spec (iso : List Char → Option (Int × Bool))
    (now : Int) (posts : List Post) (days_limit : Option Int) :
    ((days_limit = none ∨ (∀ d, days_limit = some d → d ≤ 0)) →
      filter_posts_by_date iso now posts days_limit = Except.ok posts)
    ∧ (∀ d, days_limit = some d → 0 < d →
        ((∃ p ∈ posts, ∃ t, p.date_posted = some (DateVal.dtAware t)) →
          filter_posts_by_date iso now posts days_limit = Except.error ())
        ∧ ((∀ p ∈ posts, ∀ t, p.date_posted ≠ some (DateVal.dtAware t)) →
          filter_posts_by_date iso now posts days_limit
            = Except.ok (posts.filter fun p =>
                !((parsedNaiveDate iso p.date_posted).any
                  fun t => decide (t < now - d * daySeconds))))) := by
  constructor
  · intro h
    unfold filter_posts_by_date
    cases hdl : days_limit with
    | none => rw [if_pos (Or.inl rfl)]
    | some d =>
      rcases h with h | h
      · exact absurd hdl (by rw [h]; simp)
      · rw [if_pos (Or.inr (by simpa using h d hdl))]
  · intro d hd hpos
    subst hd
    unfold filter_posts_by_date
    rw [if_neg (by simp; omega)]
    simp only [Option.getD_some]
    exact ⟨filterGo_error iso _ posts, filterGo_ok iso _ posts⟩

deriving instance DecidableEq for Except

/-- Record with a timezone-aware datetime field, as the extraction paths
produce for a `Z`-suffixed machine-readable timestamp. -/
def cexPostAwareDT : Post :=
  ⟨none, none, none, none, none, some (DateVal.dtAware 0), none, none, none⟩

/-- Record whose string date parses to a timezone-aware instant. -/
def cexPostAwareStr : Post :=
  ⟨none, none, none, none, none,
    some (DateVal.str (pstr ("2020-01-01T00:00:00Z"))), none, none, none⟩

/-- C2 counterexample: with a 7-day limit at `now = 0`, a timezone-aware
datetime field makes the filter raise the uncaught comparison `TypeError`
(the claim says the filter never raises), and a string date that parses to
an aware instant far before the cutoff is kept, because the comparison
`TypeError` is caught by the bare `except` (the claim says a successfully
parsed date strictly before the cutoff is excluded). -/
theorem filter_posts_by_date_claim_counterexample :
    filter_posts_by_date (fun _ => some (0, true)) 0 [cexPostAwareDT]
        (some 7) = Except.error ()
    ∧ filter_posts_by_date (fun _ => some (-1000000, true)) 0
        [cexPostAwareStr] (some 7) = Except.ok [cexPostAwareStr]
    ∧ -1000000 < 0 - 7 * daySeconds := by
  decide

/-- Witness record with a naive datetime field. -/
def cexPostNaive : Post :=
  ⟨none, none, none, none, none, some (DateVal.dt 0), none, none, none⟩

/-- Witness for `filter_posts_by_date_spec`: a positive limit on a list
without aware datetime fields goes through the fail-open filter branch. -/
theorem filter_posts_by_date_spec_witness :
    filter_posts_by_date (fun _ => none) 0 [cexPostNaive] (some 1)
      = Except.ok ([cexPostNaive].filter fun p =>
          !((parsedNaiveDate (fun _ => none) p.date_posted).any
            fun t => decide (t < 0 - 1 * daySeconds))) :=
  ((filter_posts_by_date_spec (fun _ => none) 0 [cexPostNaive]
      (some 1)).2 1 rfl (by decide)).2
    (by
      intro p hp t hEq
      rw [List.mem_singleton] at hp
      subst hp
      simp [cexPostNaive] at hEq)

/-- Text block of `clean_post_data` (`parser.py` line 171):
`cleaned['text'] = normalize_text(cleaned['text'])` when the key is
present. -/
def cleanTextField : Option (List Char) → Option (List Char)
  | some t => some (normalize_text t)
  | none => none

/-- Snippet block of `clean_post_data` (`parser.py` line 172):
`cleaned['text_snippet'] = extract_text_snippet(cleaned['text'])`, reading
the just-normalized text; without a `text` key the snippet field is left
as it was. -/
def cleanSnippetField : Option (List Char) → Option (List Char) →
    Option (List Char)
  | some t, _ => some (extract_text_snippet (normalize_text t) 200)
  | none, snip => snip

/-- URL block of `clean_post_data` (`parser.py` lines 175-181): a present,
non-empty URL lacking the `http` prefix gets the platform base URL
prepended. -/
def cleanUrlField : Option (List Char) → Option (List Char)
  | some u =>
    if !u.isEmpty then
      (if !((pstr ("http")).isPrefixOf u) then
        some (pstr ("https://www.linkedin.com") ++ u)
      else some u)
    else some u
  | none => none

/-- Date block of `clean_post_data` (`parser.py` lines 184-189): a string
date is parsed with `fromisoformat`, falling back to `datetime.now()`;
other values pass through. -/
def cleanDateField (iso : List Char → Option Int) (now : Int) :
    Option DateVal → Option DateVal
  | some (DateVal.str s) => some (DateVal.dt ((iso s).getD now))
  | d => d

/-- Model of `clean_post_data` (`parser.py` lines 157-191).  The source
copies the dict and runs four statement blocks, each writing only its own
keys and reading the state left by the earlier blocks; the only
cross-block read is the snippet reading the normalized text, captured in
`cleanSnippetField`. -/
def clean_post_data (iso : List Char → Option Int) (now : Int)
    (post : Post) : Post :=
  { post with
    text := cleanTextField post.text
    text_snippet := cleanSnippetField post.text post.text_snippet
    post_url := cleanUrlField post.post_url
    author_url := cleanUrlField post.author_url
    date_posted := cleanDateField iso now post.date_posted }

/-- Normalizing twice is normalizing once, at the field level. -/
theorem cleanTextField_idem (t : Option (List Char)) :
    cleanTextField (cleanTextField t) = cleanTextField t := by
  cases t <;> simp [cleanTextField, normalize_text_idem]

/-- Recomputing the snippet from already-normalized text is stable. -/
theorem cleanSnippetField_stable (t s : Option (List Char)) :
    cleanSnippetField (cleanTextField t) (cleanSnippetField t s)
      = cleanSnippetField t s := by
  cases t <;> simp [cleanTextField, cleanSnippetField, normalize_text_idem]

/-- The platform base URL starts with `http`. -/
theorem http_prefix_base (u : List Char) :
    (pstr ("http")).isPrefixOf (pstr ("https://www.linkedin.com") ++ u)
      = true := by
  have h1 : pstr ("http") <+: pstr ("https://www.linkedin.com") := by
    rw [← List.isPrefixOf_iff_prefix]
    decide
  exact List.isPrefixOf_iff_prefix.mpr
    (h1.trans (List.prefix_append _ u))

/-- URL completion is idempotent: a completed URL starts with `http` and is
left alone on a second pass. -/
theorem cleanUrlField_idem (u : Option (List Char)) :
    cleanUrlField (cleanUrlField u) = cleanUrlField u := by
  cases u with
  | none => rfl
  | some v =>
    by_cases hv : v.isEmpty = true
    · simp [cleanUrlField, hv]
    · by_cases hp : (pstr ("http")).isPrefixOf v = true
      · simp [cleanUrlField, hv, hp]
      · have hne : (pstr ("https://www.linkedin.com") ++ v).isEmpty
            = false := rfl
        simp [cleanUrlField, hv, hp, hne, http_prefix_base]

/-- Date coercion is idempotent: after one pass the field is an instant or
absent, both untouched by a second pass with any current time. -/
theorem cleanDateField_idem (iso : List Char → Option Int)
    (now1 now2 : Int) (d : Option DateVal) :
    cleanDateField iso now2 (cleanDateField iso now1 d)
      = cleanDateField iso now1 d := by
  cases d with
  | none => rfl
  | some dv => cases dv <;> rfl

/-- C6 claim theorem: `clean_post_data` is idempotent, even across
different `datetime.now()` readings in the two passes. -/
theorem clean_post_data_idem (iso : List Char → Option Int)
    (now1 now2 : Int) (p : Post) :
    clean_post_data iso now2 (clean_post_data iso now1 p)
      = clean_post_data iso now1 p := by
  cases p with
  | mk pu au an t ts dp li co sc =>
    simp [clean_post_data, cleanTextField_idem, cleanSnippetField_stable,
      cleanUrlField_idem, cleanDateField_idem]

/-- Read a dict through its heap address (Python variable holding a dict
reference). -/
def readH (h : List Post) (a : Nat) : Post := h.getD a default

/-- Write a dict through its heap address (`d[k] = v` mutates in place). -/
def writeH (h : List Post) (a : Nat) (p : Post) : List Post := h.set a p

/-- Allocate a fresh dict (`post.copy()` returns a new object). -/
def allocH (h : List Post) (p : Post) : List Post × Nat := (h ++ [p], h.length)

/-- Heap-level model of `clean_post_data`, keeping the aliasing structure
of the source: `cleaned = post.copy()` (line 167) allocates a fresh dict
and every subsequent assignment writes through the `cleaned` address
only — the address `post` is never written. -/
def clean_post_data_heap (iso : List Char → Option Int) (now : Int)
    (h : List Post) (post : Nat) : List Post × Nat :=
  let h1 := (allocH h (readH h post)).1
  let cleaned := (allocH h (readH h post)).2
  let h2 := writeH h1 cleaned
    { readH h1 cleaned with
      text := cleanTextField (readH h1 cleaned).text
      text_snippet := cleanSnippetField (readH h1 cleaned).text
        (readH h1 cleaned).text_snippet }
  let h3 := writeH h2 cleaned
    { readH h2 cleaned with
      post_url := cleanUrlField (readH h2 cleaned).post_url }
  let h4 := writeH h3 cleaned
    { readH h3 cleaned with
      author_url := cleanUrlField (readH h3 cleaned).author_url }
  let h5 := writeH h4 cleaned
    { readH h4 cleaned with
      date_posted := cleanDateField iso now (readH h4 cleaned).date_posted }
  (h5, cleaned)

/-- C10 claim theorem: `clean_post_data` never mutates its argument — after
the call, the record at the argument's address is unchanged; all writes go
to the fresh copy. -/
theorem clean_post_data_heap_frame (iso : List Char → Option Int)
    (now : Int) (h : List Post) (a : Nat) (ha : a < h.length) :
    readH (clean_post_data_heap iso now h a).1 a = readH h a := by
  have hne : h.length ≠ a := by omega
  unfold clean_post_data_heap allocH writeH readH
  simp only []
  rw [List.getD_eq_getElem?_getD, List.getD_eq_getElem?_getD,
    List.getElem?_set_ne hne, List.getElem?_set_ne hne,
    List.getElem?_set_ne hne, List.getElem?_set_ne hne,
    List.getElem?_append_left ha]

/-- Witness for `clean_post_data_heap_frame` on a one-record heap. -/
theorem clean_post_data_heap_frame_witness :
    readH (clean_post_data_heap (fun _ => none) 0 [(default : Post)] 0).1 0
      = readH [(default : Post)] 0 :=
  clean_post_data_heap_frame (fun _ => none) 0 [(default : Post)] 0
    (by decide)

/-- The fresh copy returned by the heap-level cleaner holds exactly the
record computed by the pure `clean_post_data`, tying the two models
together. -/
theorem clean_post_data_heap_result (iso : List Char → Option Int)
    (now : Int) (h : List Post) (a : Nat) :
    readH (clean_post_data_heap iso now h a).1
        (clean_post_data_heap iso now h a).2
      = clean_post_data iso now (readH h a) := by
  have hlen : h.length < (h ++ [readH h a]).length := by
    simp
  unfold clean_post_data_heap allocH writeH readH clean_post_data
  simp only []
  rw [List.getD_eq_getElem?_getD]
  rw [List.getElem?_set_eq (by simpa using hlen)]
  rw [List.getD_eq_getElem?_getD]
  rw [List.getElem?_set_eq (by simpa using hlen)]
  rw [List.getD_eq_getElem?_getD]
  rw [List.getElem?_set_eq (by simpa using hlen)]
  rw [List.getD_eq_getElem?_getD]
  rw [List.getElem?_set_eq (by simpa using hlen)]
  rw [List.getD_eq_getElem?_getD]
  have hbase : (h ++ [h.getD a default])[h.length]?
      = some (h.getD a default) := by
    rw [List.getElem?_append_right (by omega)]
    simp
  rw [hbase]
  rfl

/-- Sort key of `score_and_rank_posts`: `x.get('score', 0)`. -/
def Post.scoreD (p : Post) : Nat := p.score.getD 0

/-- Score assignment of `score_and_rank_posts` (`main.py` lines 82-85). -/
def assignScore (keywords : List (List Char)) (p : Post) : Post :=
  { p with score := some (calculate_relevance_score (p.text.getD []) keywords) }

/-- Stable insertion into a descending-sorted list: skip strictly greater
scores, insert before the first score less than or equal to the new one. -/
def insertDesc (x : Post) : List Post → List Post
  | [] => [x]
  | y :: ys =>
    if x.scoreD < y.scoreD then y :: insertDesc x ys else x :: y :: ys

/-- Stable descending sort by score.  `list.sort(key=..., reverse=True)` is
a stable sort, and a stable sort's output is uniquely determined by the key
ordering, so stable insertion sort is an exact model of it. -/
def sortDesc : List Post → List Post
  | [] => []
  | x :: xs => insertDesc x (sortDesc xs)

/-- Model of `score_and_rank_posts` (`main.py` lines 71-90): set every
record's score from its text, then stable-sort descending by score. -/
def score_and_rank_posts (posts : List Post)
    (keywords : List (List Char)) : List Post :=
  sortDesc (posts.map (assignScore keywords))

/-- Membership in an insertion. -/
theorem mem_insertDesc {x z : Post} : ∀ {l : List Post},
    z ∈ insertDesc x l ↔ z = x ∨ z ∈ l := by
  intro l
  induction l with
  | nil => simp [insertDesc]
  | cons y ys ih =>
    by_cases hc : x.scoreD < y.scoreD
    · rw [insertDesc, if_pos hc]
      simp only [List.mem_cons, ih]
      tauto
    · rw [insertDesc, if_neg hc]
      simp only [List.mem_cons]

/-- Insertion preserves descending sortedness. -/
theorem insertDesc_sorted (x : Post) (l : List Post)
    (h : l.Pairwise (fun a b => b.scoreD ≤ a.scoreD)) :
    (insertDesc x l).Pairwise (fun a b => b.scoreD ≤ a.scoreD) := by
  induction l with
  | nil => simp [insertDesc]
  | cons y ys ih =>
    rw [List.pairwise_cons] at h
    obtain ⟨hy, hys⟩ := h
    by_cases hc : x.scoreD < y.scoreD
    · rw [insertDesc, if_pos hc]
      rw [List.pairwise_cons]
      refine ⟨?_, ih hys⟩
      intro z hz
      rcases mem_insertDesc.mp hz with rfl | hz
      · omega
      · exact hy z hz
    · rw [insertDesc, if_neg hc]
      rw [List.pairwise_cons]
      refine ⟨?_, List.Pairwise.cons hy hys⟩
      intro z hz
      rcases List.mem_cons.mp hz with rfl | hz
      · omega
      · have := hy z hz
        omega

/-- The sort output is descending in score. -/
theorem sortDesc_sorted (l : List Post) :
    (sortDesc l).Pairwise (fun a b => b.scoreD ≤ a.scoreD) := by
  induction l with
  | nil => simp [sortDesc]
  | cons x xs ih => exact insertDesc_sorted x _ ih

/-- Inserting an element of a different score leaves a score class
untouched. -/
theorem filter_insertDesc_ne (x : Post) (n : Nat) (hx : x.scoreD ≠ n) :
    ∀ l : List Post,
    (insertDesc x l).filter (fun p => decide (p.scoreD = n))
      = l.filter (fun p => decide (p.scoreD = n)) := by
  intro l
  induction l with
  | nil => simp [insertDesc, hx]
  | cons y ys ih =>
    by_cases hc : x.scoreD < y.scoreD
    · rw [insertDesc, if_pos hc, List.filter_cons, List.filter_cons]
      by_cases hy : y.scoreD = n
      · rw [if_pos (by simpa using hy), if_pos (by simpa using hy), ih]
      · rw [if_neg (by simpa using hy), if_neg (by simpa using hy), ih]
    · rw [insertDesc, if_neg hc, List.filter_cons,
        if_neg (by simpa using hx)]

/-- Inserting an element of score `n` puts it at the head of its score
class: every element it skips has a strictly greater score. -/
theorem filter_insertDesc_eq (x : Post) (n : Nat) (hx : x.scoreD = n) :
    ∀ l : List Post,
    (insertDesc x l).filter (fun p => decide (p.scoreD = n))
      = x :: l.filter (fun p => decide (p.scoreD = n)) := by
  intro l
  induction l with
  | nil => simp [insertDesc, hx]
  | cons y ys ih =>
    by_cases hc : x.scoreD < y.scoreD
    · have hy : ¬ y.scoreD = n := by omega
      rw [insertDesc, if_pos hc, List.filter_cons,
        if_neg (by simpa using hy), ih, List.filter_cons,
        if_neg (by simpa using hy)]
    · rw [insertDesc, if_neg hc, List.filter_cons, if_pos (by simpa using hx)]

/-- Stability of the sort: each score class comes out in input order. -/
theorem filter_sortDesc (n : Nat) : ∀ l : List Post,
    (sortDesc l).filter (fun p => decide (p.scoreD = n))
      = l.filter (fun p => decide (p.scoreD = n)) := by
  intro l
  induction l with
  | nil => rfl
  | cons x xs ih =>
    rw [sortDesc]
    by_cases hx : x.scoreD = n
    · rw [filter_insertDesc_eq x n hx _, ih, List.filter_cons,
        if_pos (by simpa using hx)]
    · rw [filter_insertDesc_ne x n hx _, ih, List.filter_cons,
        if_neg (by simpa using hx)]

/-- C7 claim theorem: `score_and_rank_posts` returns the scored records in
descending score order, and the sort is stable — for every score value, the
records carrying it appear in the same relative order as in the scored
input (which itself preserves the input order record-for-record). -/
theorem score_and_rank_posts_spec (posts : List Post)
    (keywords : List (List Char)) :
    (score_and_rank_posts posts keywords).Pairwise
        (fun a b => Post.scoreD b ≤ Post.scoreD a)
    ∧ ∀ n, (score_and_rank_posts posts keywords).filter
          (fun p => decide (Post.scoreD p = n))
        = (posts.map (assignScore keywords)).filter
          (fun p => decide (Post.scoreD p = n)) :=
  ⟨sortDesc_sorted _, fun n => filter_sortDesc n _⟩

/-- Calendar-field view of a Python `datetime`, the granularity used by
`parse_relative_date`. -/
structure CalDT where
  year : Int
  month : Int
  day : Int
  hour : Int
  minute : Int
deriving DecidableEq

/-- Gregorian leap-year rule, as `datetime` validates dates. -/
def isLeapYear (y : Int) : Bool :=
  (y % 4 == 0 && y % 100 != 0) || y % 400 == 0

/-- Length of a month, as `datetime` validates the `day` field. -/
def daysInMonth (y m : Int) : Int :=
  if m = 2 then (if isLeapYear y then 29 else 28)
  else if m = 4 ∨ m = 6 ∨ m = 9 ∨ m = 11 then 30
  else 31

/-- Model of `now.replace(hour=h)`: `ValueError` outside 0..23. -/
def replaceHour (d : CalDT) (h : Int) : Option CalDT :=
  if 0 ≤ h ∧ h ≤ 23 then some { d with hour := h } else none

/-- Model of `now.replace(day=v)`: `ValueError` outside the current
month. -/
def replaceDay (d : CalDT) (v : Int) : Option CalDT :=
  if 1 ≤ v ∧ v ≤ daysInMonth d.year d.month then some { d with day := v }
  else none

/-- Model of `now.replace(month=m)`: `ValueError` outside 1..12 or when the
current day does not exist in the target month. -/
def replaceMonth (d : CalDT) (m : Int) : Option CalDT :=
  if 1 ≤ m ∧ m ≤ 12 ∧ d.day ≤ daysInMonth d.year m then
    some { d with month := m }
  else none

/-- Unit of a relative-date phrase `"N <unit>s ago"`. -/
inductive RelUnit where
  | hours
  | days
  | weeks
  | months
deriving DecidableEq

/-- Model of `parse_relative_date` (`parser.py` lines 95-127) on a phrase
of the form `"N hours|days|weeks|months ago"`.  The regex table maps such a
phrase to exactly one pattern, whose action replaces a single calendar
field of `now` with a decremented value; a `ValueError` raised by `replace`
is swallowed by the bare `except`, no later pattern matches the phrase, and
the final `return now` fires.  The phrase arrives pre-parsed as the pair
`(n, unit)` that the matched regex group yields. -/
def parse_relative_date (now : CalDT) (n : Nat) (u : RelUnit) : CalDT :=
  match u with
  | RelUnit.hours => (replaceHour now (now.hour - n)).getD now
  | RelUnit.days => (replaceDay now (now.day - n)).getD now
  | RelUnit.weeks => (replaceDay now (now.day - n * 7)).getD now
  | RelUnit.months => (replaceMonth now (now.month - n)).getD now

/-- C5 failing input: at `now = 2024-01-15 01:00` the phrase
`"3 hours ago"` makes the source compute `now.replace(hour=-2)`, which
raises `ValueError`; the handler swallows it and the function returns `now`
itself, not the true three-hours-earlier instant `2024-01-14 22:00` that a
duration subtraction (and the claim) produce. -/
theorem parse_relative_date_boundary_bug :
    parse_relative_date ⟨2024, 1, 15, 1, 0⟩ 3 RelUnit.hours
        = ⟨2024, 1, 15, 1, 0⟩
    ∧ parse_relative_date ⟨2024, 1, 15, 1, 0⟩ 3 RelUnit.hours
        ≠ ⟨2024, 1, 14, 22, 0⟩ := by
  decide

/-- Leading digit run of a string. -/
def digitRun : List Char → List Char
  | [] => []
  | c :: cs => if c.isDigit then c :: digitRun cs else []

/-- First digit run, as `re.findall(r'\d+', s)[0]`; `none` when the string
has no digit. -/
def firstDigits : List Char → Option (List Char)
  | [] => none
  | c :: cs => if c.isDigit then some (digitRun (c :: cs)) else firstDigits cs

/-- Value of a digit run, as Python `int`. -/
def digitsToNat (l : List Char) : Nat :=
  l.foldl (fun acc c => acc * 10 + (c.toNat - 48)) 0

/-- Model of `extract_engagement` (`parser.py` lines 130-154) applied to
the string the engagement search found (`none` when nothing matched): the
first embedded integer, else 0. -/
def extract_engagement (s : Option (List Char)) : Nat :=
  match s with
  | some t =>
    match firstDigits t with
    | some ds => digitsToNat ds
    | none => 0
  | none => 0

/-- Findings of the BeautifulSoup queries of `parse_post_element` on one
post element: each field holds what the corresponding `find` call would
return (`none` for a missing tag or attribute, text already extracted by
`get_text`). -/
structure SoupElement where
  postHref : Option (List Char)
  authorFound : Bool
  authorHref : List Char
  authorText : List Char
  textRaw : Option (List Char)
  timeFound : Bool
  timeAttr : Option (List Char)
  timeText : List Char
  likeStr : Option (List Char)
  commentStr : Option (List Char)
deriving DecidableEq

/-- Raw unit fed to the adapter: a pre-extracted mapping (returned as is by
the dict branch) or a structured markup node. -/
inductive RawUnit where
  | mapping (p : Post)
  | node (e : SoupElement)

/-- Permalink resolution of `parse_post_element` (`parser.py` lines
29-34): the post-anchor href, absolutized against the base URL. -/
def soupPostUrl (base_url : List Char) (e : SoupElement) :
    Option (List Char) :=
  match e.postHref with
  | some href =>
    if !href.isEmpty then
      some (if (pstr ("http")).isPrefixOf href then href
        else base_url ++ href)
    else none
  | none => none

/-- Text resolution of `parse_post_element` (lines 45-54): the first
matching text element's content, normalized; empty when nothing matched. -/
def soupText (e : SoupElement) : List Char :=
  match e.textRaw with
  | some t => normalize_text t
  | none => []

/-- Model of `parse_post_element` (`parser.py` lines 11-92).  `iso` models
`datetime.fromisoformat`; `rel` abstracts the instant computed by
`parse_relative_date` on the free-form tag text (that function itself is
modelled over `CalDT` above; the record produced here does not depend on
its calendar internals); `now` is `datetime.now()`. -/
def parse_post_element (iso rel : List Char → Option Int) (now : Int)
    (base_url : List Char) : RawUnit → Option Post
  | RawUnit.mapping p => some p
  | RawUnit.node e =>
    let post_url := soupPostUrl base_url e
    let author_url : Option (List Char) :=
      if e.authorFound then
        some (if (pstr ("http")).isPrefixOf e.authorHref then e.authorHref
          else base_url ++ e.authorHref)
      else none
    let author_name : Option (List Char) :=
      if e.authorFound then some (normalize_text e.authorText) else none
    let text := soupText e
    let date_posted : Option Int :=
      if e.timeFound then
        match e.timeAttr with
        | some a =>
          if !a.isEmpty then
            iso (pyReplace (pstr ("Z")) (pstr ("+00:00")) a)
          else rel e.timeText
        | none => rel e.timeText
      else none
    let likes := extract_engagement e.likeStr
    let comments := extract_engagement e.commentStr
    if isTruthyS post_url = false ∨ text = [] then none
    else
      some {
        post_url := some (post_url.getD [])
        author_url := some (author_url.getD [])
        author_name := some (if (author_name.getD []).isEmpty
          then pstr ("Unknown") else author_name.getD [])
        text := some text
        text_snippet := some (extract_text_snippet text 200)
        date_posted := some (DateVal.dt (date_posted.getD now))
        likes := some (likes : Int)
        comments := some (comments : Int)
        score := none }

/-- Python `str.strip()`. -/
def pyStrip (l : List Char) : List Char := rstripWS (lstripWS l)

/-- Python `in` on strings: substring containment. -/
def containsSub (l pat : List Char) : Bool :=
  (l.tails).any fun t => pat.isPrefixOf t

/-- Findings of the Playwright queries of `_extract_single_post` on one
post element (`scraper.py` lines 551-668): each field holds what the
corresponding `query_selector`, `get_attribute` or `inner_text` call would
produce. -/
structure PWElement where
  postHref : Option (List Char)
  authorHref : Option (List Char)
  authorText : List Char
  sel1 : Option (List Char)
  sel2 : Option (List Char)
  sel3 : Option (List Char)
  timeFound : Bool
  timeAttr : Option (List Char)
  timeText : List Char
  likesText : Option (List Char)
  commentsText : Option (List Char)
  anyLinkHref : Option (List Char)
  innerText : List Char
deriving DecidableEq

/-- First non-empty hit of the text-selector loop; a found-but-empty hit
leaves the running text empty, like the source's overwrite-and-test. -/
def firstNonEmpty : List (Option (List Char)) → List Char
  | [] => []
  | o :: os =>
    match o with
    | some t => if !t.isEmpty then t else firstNonEmpty os
    | none => firstNonEmpty os

/-- Text resolution of `_extract_single_post` over the three selectors
(lines 574-586). -/
def pwSelText (e : PWElement) : List Char :=
  firstNonEmpty [e.sel1, e.sel2, e.sel3]

/-- Text resolution including the whole-element fallback (lines
642-648). -/
def pwText (e : PWElement) : List Char :=
  let t := pwSelText e
  if t.isEmpty then
    (if !(e.innerText).isEmpty then pyStrip e.innerText else [])
  else t

/-- Permalink resolution of `_extract_single_post` including the any-link
fallback (lines 554-560 and 633-640). -/
def pwPostUrl (e : PWElement) : Option (List Char) :=
  let fromPost : Option (List Char) :=
    match e.postHref with
    | some href =>
      if !href.isEmpty then
        some (if (pstr ("http")).isPrefixOf href then href
          else pstr ("https://www.linkedin.com") ++ href)
      else none
    | none => none
  match fromPost with
  | some u => some u
  | none =>
    match e.anyLinkHref with
    | some href =>
      if !href.isEmpty && containsSub href (pstr ("/posts/")) then
        some (if (pstr ("http")).isPrefixOf href then href
          else pstr ("https://www.linkedin.com") ++ href)
      else none
    | none => none

/-- Date resolution of `_extract_single_post` (lines 589-607): the
machine-readable attribute when it parses, else the relative phrase of the
tag text, else nothing. -/
def pwDate (iso rel : List Char → Option Int) (e : PWElement) : Option Int :=
  if e.timeFound then
    let d0 : Option Int :=
      match e.timeAttr with
      | some a =>
        if !a.isEmpty then
          iso (pyReplace (pstr ("Z")) (pstr ("+00:00")) a)
        else none
      | none => none
    match d0 with
    | some t => some t
    | none => if !(e.timeText).isEmpty then rel e.timeText else none
  else none

/-- Engagement count of `_extract_single_post` (lines 610-631): first
integer of the counter text with commas removed, else 0. -/
def pwEngagement (s : Option (List Char)) : Nat :=
  match s with
  | some t =>
    if !t.isEmpty then
      match firstDigits (t.filter fun c => c ≠ ',') with
      | some ds => digitsToNat ds
      | none => 0
    else 0
  | none => 0

/-- Model of `_extract_single_post` (`scraper.py` lines 551-668): resolve
permalink (with any-link fallback), author, text (with whole-element
fallback), date and engagement; return `None` only when permalink and text
are both missing; when only the permalink is missing, synthesize
`https://www.linkedin.com/feed/post/<12 hex chars of md5(text)>`; clean
the record before returning it. -/
def extract_single_post (md5 : List Char → List Char)
    (iso rel : List Char → Option Int) (now : Int) (e : PWElement) :
    Option Post :=
  let post_url := pwPostUrl e
  let author_url : Option (List Char) :=
    match e.authorHref with
    | some href =>
      if !href.isEmpty then
        some (if (pstr ("http")).isPrefixOf href then href
          else pstr ("https://www.linkedin.com") ++ href)
      else none
    | none => none
  let author_name : Option (List Char) :=
    match e.authorHref with
    | some href =>
      if !href.isEmpty then
        (if !(e.authorText).isEmpty then some (pyStrip e.authorText)
         else none)
      else none
    | none => none
  let text := pwText e
  let date_posted := pwDate iso rel e
  let likes := pwEngagement e.likesText
  let comments := pwEngagement e.commentsText
  if isTruthyS post_url = false ∧ text = [] then none
  else
    let post_url2 := if isTruthyS post_url = false then
        some (pstr ("https://www.linkedin.com/feed/post/")
          ++ (md5 text).take 12)
      else post_url
    let post_data : Post := {
      post_url := some (post_url2.getD [])
      author_url := some (author_url.getD [])
      author_name := some (if (author_name.getD []).isEmpty
        then pstr ("Unknown") else author_name.getD [])
      text := some (pyStrip text)
      text_snippet := none
      date_posted := some (DateVal.dt (date_posted.getD now))
      likes := some (likes : Int)
      comments := some (comments : Int)
      score := none }
    some (clean_post_data iso now post_data)

/-- The placeholder URL for synthesized identities starts with `http`. -/
theorem http_prefix_feed (u : List Char) :
    (pstr ("http")).isPrefixOf
      (pstr ("https://www.linkedin.com/feed/post/") ++ u) = true := by
  have h1 : pstr ("http") <+: pstr ("https://www.linkedin.com/feed/post/") := by
    rw [← List.isPrefixOf_iff_prefix]
    decide
  exact List.isPrefixOf_iff_prefix.mpr (h1.trans (List.prefix_append _ u))

/-- C1 claim theorem (amended): in the Playwright extraction path the
adapter returns `None` exactly when the resolved permalink and the resolved
text are both missing, and a missing permalink with non-empty text yields a
record whose `post_url` embeds the first 12 characters of the text's hash
in the placeholder URL; the BeautifulSoup path (`parse_post_element`)
instead returns `None` whenever either the permalink or the text is
missing, with no synthesis. -/
theorem extract_single_post_spec (md5 : List Char → List Char)
    (iso rel : List Char → Option Int) (now : Int) (e : PWElement) :
    (extract_single_post md5 iso rel now e = none
      ↔ isTruthyS (pwPostUrl e) = false ∧ pwText e = [])
    ∧ (isTruthyS (pwPostUrl e) = false → pwText e ≠ [] →
        ∃ r, extract_single_post md5 iso rel now e = some r
          ∧ r.post_url = some (pstr ("https://www.linkedin.com/feed/post/")
              ++ (md5 (pwText e)).take 12))
    ∧ ∀ (base_url : List Char) (u : SoupElement),
        parse_post_element iso rel now base_url (RawUnit.node u) = none
          ↔ (isTruthyS (soupPostUrl base_url u) = false
              ∨ soupText u = []) := by
  refine ⟨?_, ?_, ?_⟩
  · by_cases hC : isTruthyS (pwPostUrl e) = false ∧ pwText e = []
    · simp only [extract_single_post]
      rw [if_pos hC]
      simp [hC]
    · simp only [extract_single_post]
      rw [if_neg hC]
      simp [hC]
  · intro hurl htext
    have hC : ¬ (isTruthyS (pwPostUrl e) = false ∧ pwText e = []) :=
      fun hc => htext hc.2
    simp only [extract_single_post]
    rw [if_neg hC]
    refine ⟨_, rfl, ?_⟩
    have hne : (pstr ("https://www.linkedin.com/feed/post/")
        ++ (md5 (pwText e)).take 12).isEmpty = false := rfl
    simp [clean_post_data, cleanUrlField, hurl, hne, http_prefix_feed]
  · intro base_url u
    by_cases hC : isTruthyS (soupPostUrl base_url u) = false
        ∨ soupText u = []
    · simp only [parse_post_element]
      rw [if_pos hC]
      simp [hC]
    · simp only [parse_post_element]
      rw [if_neg hC]
      simp [hC]

/-- C1 counterexample element: body text present, no post-permalink
anchor. -/
def cexSoupNoLink : SoupElement :=
  ⟨none, false, [], [], some (pstr ("We are hiring")), false, none, [],
    none, none⟩

/-- C1 counterexample: on a structured node with non-empty text and no
permalink, `parse_post_element` returns `None` and synthesizes nothing,
contradicting the claim that such a unit yields a record with a hash-based
`post_url`. -/
theorem parse_post_element_drops_textonly :
    parse_post_element (fun _ => none) (fun _ => none) 0
        (pstr ("https://www.linkedin.com")) (RawUnit.node cexSoupNoLink)
      = none
    ∧ soupText cexSoupNoLink = pstr ("We are hiring") := by
  decide

/-- Stand-in hash for witnesses, with the shape of an `md5` hexdigest. -/
def md5w : List Char → List Char :=
  fun _ => pstr ("9e107d9d372bb6826bd81d3542a419d6")

/-- Witness element for the synthesized-identity branch: text found by the
first selector, no links anywhere. -/
def cexPWNoLink : PWElement :=
  ⟨none, none, [], some (pstr ("Hiring now")), none, none, false, none, [],
    none, none, none, []⟩

/-- Witness for `extract_single_post_spec`: the synthesized `post_url` on a
concrete linkless element. -/
theorem extract_single_post_spec_witness :
    ∃ r, extract_single_post md5w (fun _ => none) (fun _ => none) 0
        cexPWNoLink = some r
      ∧ r.post_url = some (pstr ("https://www.linkedin.com/feed/post/")
          ++ (md5w (pwText cexPWNoLink)).take 12) :=
  (extract_single_post_spec md5w (fun _ => none) (fun _ => none) 0
      cexPWNoLink).2.1 (by decide) (by decide)
